import Mathlib

/-!
Verification development for the Nova-Search crawler.

The Python sources (web.py, resultupdater.py, dashboard.py, favicons.py) are
shallowly embedded below.  Pure helpers become Lean functions on `List Char` /
`String`; the SQLite `pages` table becomes an association list keyed by URL;
fallible code returns `Except`.  Network fetches are abstracted as explicit
response values handed to the functions that consume them, so that every
definition is executable.

`urllib.parse.urlparse` is modelled faithfully for the components the crawler
reads (scheme, netloc, path, params, query, fragment), following CPython's
`urlsplit`: leading C0-control/space stripping, tab/CR/LF removal, scheme
detection (`:` at position > 0, ASCII-alpha first character, scheme charset),
netloc after `//` up to `/?#`, fragment split at the first `#`, query split at
the first `?`, and `urlparse`'s params split on the last path segment.
(IPv6-bracket validation and the NFKC netloc check, which only raise on exotic
inputs, are not modelled.)
-/

/-! ## Character helpers -/

def isAsciiUpperC (c : Char) : Bool := 'A' ≤ c && c ≤ 'Z'

def isAsciiLowerC (c : Char) : Bool := 'a' ≤ c && c ≤ 'z'

def isAsciiAlphaC (c : Char) : Bool := isAsciiLowerC c || isAsciiUpperC c

def isAsciiDigitC (c : Char) : Bool := '0' ≤ c && c ≤ '9'

/-- Python `str.lower`, restricted to the ASCII range (the only range the
crawler's inputs exercise: scheme characters are validated as ASCII). -/
def lowerChar (c : Char) : Char :=
  if isAsciiUpperC c then Char.ofNat (c.toNat + 32) else c

/-- Characters allowed after the first character of a URL scheme
(CPython `scheme_chars`). -/
def isSchemeChar (c : Char) : Bool :=
  isAsciiAlphaC c || isAsciiDigitC c || c = '+' || c = '-' || c = '.'

def isNetlocEnd (c : Char) : Bool := c = '/' || c = '?' || c = '#'

def isUnsafeUrlByte (c : Char) : Bool := c = '\t' || c = '\r' || c = '\n'

/-! ## List-level string helpers -/

/-- Python `s.rstrip('/')`. -/
def listRstrip (l : List Char) : List Char :=
  ((l.reverse.dropWhile (fun c => c = '/')).reverse)

/-- Split at the first occurrence of `ch`: Python `s.split(ch, 1)` when present,
`(s, "")` when absent (matching how `urlsplit` leaves query/fragment empty). -/
def splitFirst (ch : Char) (l : List Char) : List Char × List Char :=
  let pre := l.takeWhile (fun c => c ≠ ch)
  if pre.length < l.length then (pre, l.drop (pre.length + 1)) else (l, [])

/-- Python `needle in hay` for strings. -/
def containsSub (needle hay : List Char) : Bool :=
  (List.range (hay.length + 1)).any (fun i => needle.isPrefixOf (hay.drop i))

/-! ## urlparse model -/

structure UrlParts where
  scheme : List Char
  netloc : List Char
  path : List Char
  params : List Char
  query : List Char
  fragment : List Char
deriving DecidableEq, Repr

/-- CPython `urlsplit` preprocessing: `lstrip` of C0 controls and space, then
removal of tab/CR/LF. -/
def preprocessUrl (l : List Char) : List Char :=
  (l.dropWhile (fun c => c.val ≤ 0x20)).filter (fun c => ¬ isUnsafeUrlByte c)

def validScheme (pre : List Char) : Bool :=
  match pre with
  | [] => false
  | c :: rest => isAsciiAlphaC c && rest.all isSchemeChar

/-- Scheme detection of CPython `urlsplit`: a `:` at index `i > 0` preceded by
an ASCII letter and scheme characters; the scheme is lowercased. -/
def splitScheme (l : List Char) : List Char × List Char :=
  let pre := l.takeWhile (fun c => c ≠ ':')
  if pre.length < l.length && validScheme pre then
    (pre.map lowerChar, l.drop (pre.length + 1))
  else ([], l)

/-- Netloc extraction: after a leading `//`, up to the next `/`, `?` or `#`. -/
def splitNetloc (l : List Char) : List Char × List Char :=
  match l with
  | '/' :: '/' :: rest =>
    (rest.takeWhile (fun c => ¬ isNetlocEnd c), rest.dropWhile (fun c => ¬ isNetlocEnd c))
  | _ => ([], l)

/-- CPython `_splitparams`: split `;params` off the last path segment. -/
def splitParams (l : List Char) : List Char × List Char :=
  if l.contains ';' then
    if l.contains '/' then
      let seg := (l.reverse.takeWhile (fun c => c ≠ '/')).reverse
      if seg.contains ';' then
        let pre := l.take (l.length - seg.length)
        let ab := splitFirst ';' seg
        (pre ++ ab.1, ab.2)
      else (l, [])
    else splitFirst ';' l
  else (l, [])

/-- CPython `uses_params` (schemes whose path may carry `;params`). -/
def usesParams : List (List Char) :=
  ["", "ftp", "hdl", "prospero", "http", "imap", "https", "shttp", "rtsp",
   "rtsps", "rtspu", "sip", "sips", "mms", "sftp", "tel"].map String.data

/-- CPython `uses_netloc` (schemes that imply a `//` netloc on unparsing). -/
def usesNetloc : List (List Char) :=
  ["", "ftp", "http", "gopher", "nntp", "telnet", "imap", "wais", "file",
   "mms", "https", "shttp", "snews", "prospero", "rtsp", "rtsps", "rtspu",
   "rsync", "svn", "svn+ssh", "sftp", "nfs", "git", "git+ssh", "ws",
   "wss"].map String.data

def urlparseChars (l0 : List Char) : UrlParts :=
  let l := preprocessUrl l0
  let sr := splitScheme l
  let nr := splitNetloc sr.2
  let fr := splitFirst '#' nr.2
  let qr := splitFirst '?' fr.1
  let pp :=
    if usesParams.contains sr.1 && qr.1.contains ';' then splitParams qr.1
    else (qr.1, [])
  ⟨sr.1, nr.1, pp.1, pp.2, qr.2, fr.2⟩

def urlparse (u : String) : UrlParts := urlparseChars u.data

/-- The tail of the `urlparse` pipeline after scheme and netloc extraction
(fragment split, query split, params split); used to state structural lemmas
about `urlparseChars`. -/
def parseAfterNetloc (scheme netloc rest : List Char) : UrlParts :=
  let fr := splitFirst '#' rest
  let qr := splitFirst '?' fr.1
  let pp :=
    if usesParams.contains scheme && qr.1.contains ';' then splitParams qr.1
    else (qr.1, [])
  ⟨scheme, netloc, pp.1, pp.2, qr.2, fr.2⟩

/-! ## web.py: normalize_url, is_home_page -/

namespace web

/-- `web.py` `normalize_url`: `f"{scheme}://{netloc}{path}".rstrip('/')`. -/
def normalize_url (url : String) : String :=
  let p := urlparse url
  ⟨listRstrip (p.scheme ++ ':' :: '/' :: '/' :: (p.netloc ++ p.path))⟩

/-- `web.py` `is_home_page`: the parsed path is `''` or `'/'`. -/
def is_home_page (url : String) : Bool :=
  let p := urlparse url
  p.path = [] || p.path = ['/']

end web

/-! ## resultupdater.py: normalize_url (`urlparse(url).geturl().rstrip('/')`) -/

namespace resultupdater

/-- CPython 3.11 `ParseResult.geturl` = `urlunparse` of the six components
(`urlunsplit` adds `//` when there is a netloc, or when the scheme is in
`uses_netloc` and the path does not already start with `//`). -/
def geturlChars (p : UrlParts) : List Char :=
  let url := if p.params ≠ [] then p.path ++ ';' :: p.params else p.path
  let url :=
    if p.netloc ≠ [] ||
       (p.scheme ≠ [] && usesNetloc.contains p.scheme && url.take 2 ≠ ['/', '/']) then
      '/' :: '/' :: (p.netloc ++
        (if url ≠ [] && url.head? ≠ some '/' then '/' :: url else url))
    else url
  let url := if p.scheme ≠ [] then p.scheme ++ ':' :: url else url
  let url := if p.query ≠ [] then url ++ '?' :: p.query else url
  if p.fragment ≠ [] then url ++ '#' :: p.fragment else url

/-- `resultupdater.py` `normalize_url`: `urlparse(url).geturl().rstrip('/')`. -/
def normalize_url (url : String) : String :=
  ⟨listRstrip (geturlChars (urlparse url))⟩

end resultupdater

/-! ## The pages table

One row per URL (`url TEXT PRIMARY KEY`), modelled as an association list.
Timestamps are abstract ticks (`Nat`). -/

structure PageRow where
  title : String
  description : String
  keywords : String
  favicon_id : Option String
  priority : Int
  last_crawled : Option Nat
deriving DecidableEq, Repr

abbrev Store := List (String × PageRow)

def lookupPage (s : Store) (url : String) : Option PageRow :=
  (s.find? (fun p => p.1 = url)).map (fun p => p.2)

namespace web

/-- `web.py` `update_priority`: `UPDATE pages SET priority = priority + ? WHERE url = ?`.
(Defined because the source defines it; `crawl_page` never calls it.) -/
def update_priority (s : Store) (url : String) (amount : Int) : Store :=
  s.map (fun p =>
    if p.1 = url then (p.1, { p.2 with priority := p.2.priority + amount }) else p)

/-- `web.py` `save_page`: `INSERT INTO pages ... VALUES (?, ?, ?, ?, 0, ?)`.
On a primary-key conflict SQLite raises `IntegrityError`, modelled as `.error`. -/
def save_page (s : Store) (url title description keywords : String) (now : Nat) :
    Except String Store :=
  match lookupPage s url with
  | some _ => .error "IntegrityError: UNIQUE constraint failed: pages.url"
  | none => .ok ((url, ⟨title, description, keywords, none, 0, some now⟩) :: s)

/-- `web.py` `update_page`: update title/description/keywords/last_crawled
(priority and favicon untouched). -/
def update_page (s : Store) (url title description keywords : String) (now : Nat) : Store :=
  s.map (fun p =>
    if p.1 = url then
      (p.1, { p.2 with
                title := title, description := description,
                keywords := keywords, last_crawled := some now })
    else p)

/-- The priority delta computed by `web.py` `crawl_page` (lines 223-226):
`+5` home page, `-5` empty title, `-3` empty description, `+1` keywords. -/
def priority_adjustment (normalized_url title description keywords : String) : Int :=
  (if is_home_page normalized_url then 5 else 0)
  - (if title = "" then 5 else 0)
  - (if description = "" then 3 else 0)
  + (if keywords ≠ "" then 1 else 0)

/-- The persistence step of `web.py` `crawl_page` (lines 216-235), exactly as
written: on a `404` in the title, return before touching the store; otherwise
look the row up (the source reads it through a cursor name `c` that is not
defined in the file; the read itself is the evident `SELECT ... WHERE url = ?`
on `pages`); if a row exists and the metadata differ, `update_page`; if a row
exists and the metadata are unchanged, `save_page` — an `INSERT` of an existing
primary key, which raises; if no row exists, nothing is written.  The returned
`Bool` records whether control reaches the link-collection loop. -/
def crawl_page_persist (s : Store) (normalized_url title description keywords : String)
    (now : Nat) : Except String (Store × Bool) :=
  if containsSub "404".data title.data then .ok (s, false)
  else
    match lookupPage s normalized_url with
    | some row =>
      if row.title ≠ title || row.description ≠ description || row.keywords ≠ keywords then
        .ok (update_page s normalized_url title description keywords now, true)
      else
        (save_page s normalized_url title description keywords now).map (fun s2 => (s2, true))
    | none => .ok (s, true)

/-- `web.py` `is_valid_link`: reject binary/media extensions
(`link.lower().endswith(ext)`). -/
def is_valid_link (link : String) : Bool :=
  let invalid := [".css", ".js", ".jpg", ".jpeg", ".png", ".gif",
                  ".svg", ".woff", ".pdf", ".zip", ".mp4", ".mp3", ".exe"]
  ¬ invalid.any (fun ext => ext.data.isSuffixOf (link.data.map lowerChar))

/-- The link-collection loop of `crawl_page` (lines 241-254).  `hrefs` are the
absolute URLs after `urljoin`; a link is kept when its scheme is http/https,
`is_valid_link` holds, and its netloc equals the page's `base_domain`; the
normalized link is added (the Python `set` is modelled as a list). -/
def collectLinks (normalized_url : String) (hrefs : List String) : List String :=
  let base_domain := (urlparse normalized_url).netloc
  hrefs.filterMap (fun full =>
    let p := urlparse full
    if (p.scheme = "http".data || p.scheme = "https".data) &&
       is_valid_link full && p.netloc = base_domain then
      some (normalize_url full)
    else none)

/-- A fetched page as `crawl_page` sees it after `session.get` and parsing:
status code, extracted metadata, and the absolute outbound link targets. -/
structure WebFetch where
  status : Nat
  title : String
  description : String
  keywords : String
  hrefs : List String
deriving DecidableEq, Repr

/-- `web.py` `crawl_page`: normalize, fetch, return the link set unchanged on a
non-200 status, persist, collect links.  Any exception is caught by the outer
handler, which returns an empty set with the store as the exception left it. -/
def crawl_page (fetch : WebFetch) (url : String) (s : Store) (now : Nat) :
    Store × List String :=
  let normalized := normalize_url url
  if fetch.status ≠ 200 then (s, [])
  else
    match crawl_page_persist s normalized fetch.title fetch.description fetch.keywords now with
    | .error _ => (s, [])
    | .ok (s2, cont) =>
      if cont then (s2, collectLinks normalized fetch.hrefs) else (s2, [])

end web

/-! ## resultupdater.py: the refresh crawler -/

namespace resultupdater

/-- `resultupdater.py` `update_page`: overwrite metadata, timestamp and
favicon id (priority untouched). -/
def update_page (s : Store) (url title description keywords : String)
    (favicon_id : Option String) (now : Nat) : Store :=
  s.map (fun p =>
    if p.1 = url then
      (p.1, { title := title, description := description, keywords := keywords,
              favicon_id := favicon_id, priority := p.2.priority,
              last_crawled := some now })
    else p)

/-- `resultupdater.py` `save_page`: `INSERT` with priority 0 (only reached when
the row is known to be absent). -/
def save_page (s : Store) (url title description keywords : String)
    (favicon_id : Option String) (now : Nat) : Store :=
  (url, ⟨title, description, keywords, favicon_id, 0, some now⟩) :: s

/-- `resultupdater.py` `remove_url`: `DELETE FROM pages WHERE url = ?`. -/
def remove_url (s : Store) (url : String) : Store :=
  s.filter (fun p => p.1 ≠ url)

/-- One HTTP response as `crawl` classifies it: status, whether the
Content-Type contains `text/html`, and the metadata a successful parse
extracts. -/
structure FetchResult where
  status : Nat
  isHtml : Bool
  title : String
  description : String
  keywords : String
deriving DecidableEq, Repr

/-- The outcome of one `crawl` call: how many `session.get` calls were made,
the `time.sleep` delays performed (in seconds, in order), and the store. -/
structure CrawlOutcome where
  attempts : Nat
  sleeps : List Nat
  store : Store
deriving DecidableEq, Repr

/-- `resultupdater.py` `crawl(url, session, conn, stealth_mode, retries=3)`.
`responses n` is the response to the `n`-th `session.get` of this URL;
`favicon_id` abstracts `download_favicon(domain)`.  On 429 the code sleeps 5s
and recurses with `retries - 1` while `retries > 0`, then gives up; a 4xx
other than 429 deletes the row; any other non-200 or non-HTML response skips;
a 200 HTML response updates the row when present, else inserts it. -/
def crawl (responses : Nat → FetchResult) (favicon_id : Option String) (now : Nat)
    (url : String) (s : Store) (attempt : Nat) (retries : Nat) : CrawlOutcome :=
  let r := responses attempt
  if r.status = 429 then
    match retries with
    | Nat.succ retries2 =>
      let o := crawl responses favicon_id now url s (attempt + 1) retries2
      { o with attempts := o.attempts + 1, sleeps := 5 :: o.sleeps }
    | 0 => { attempts := 1, sleeps := [], store := s }
  else if 400 ≤ r.status && r.status < 500 then
    { attempts := 1, sleeps := [], store := remove_url s url }
  else if r.status ≠ 200 || ¬ r.isHtml then
    { attempts := 1, sleeps := [], store := s }
  else
    let s2 :=
      match lookupPage s url with
      | some _ => update_page s url r.title r.description r.keywords favicon_id now
      | none => save_page s url r.title r.description r.keywords favicon_id now
    { attempts := 1, sleeps := [], store := s2 }

/-- A response sequence that returns 429 on every attempt. -/
def always429 : Nat → FetchResult := fun _ => ⟨429, false, "", "", ""⟩

end resultupdater

/-! ## favicons.py / resultupdater.py / web.py: favicon resolution -/

/-- An HTTP response to the icon-URL fetch. -/
structure HttpResponse where
  status : Nat
  contentType : String
deriving DecidableEq, Repr

/-- MD5 hex digest, modelled as an abstract deterministic digest of the input
string (the development only relies on it being a function of the URL). -/
def md5hex (s : String) : String := s

/-- `get_favicon_url_from_html` (same logic in all three files): the icon
`<link>` href resolved against the domain when one is discoverable, else the
`/favicon.ico` fallback.  `iconHref` is the already-resolved href. -/
def get_favicon_url_from_html (domain : String) (iconHref : Option String) : String :=
  match iconHref with
  | some href => href
  | none => "https://" ++ domain ++ "/favicon.ico"

namespace favicons

/-- The extension table of `favicons.py` `download_favicon` (substring tests on
the lowercased Content-Type, in source order). -/
def extOfContentType (ct : List Char) : Option String :=
  if containsSub "image/png".data ct then some "png"
  else if containsSub "image/jpeg".data ct then some "jpg"
  else if containsSub "image/svg+xml".data ct then some "svg"
  else if containsSub "image/x-icon".data ct || containsSub "image/vnd.microsoft.icon".data ct then
    some "ico"
  else if containsSub "image/webp".data ct then some "webp"
  else if containsSub "image/avif".data ct then some "avif"
  else none

/-- `favicons.py` `download_favicon`: resolve the icon URL, fetch it; on a
non-200 status, an HTML content type, or a content type outside the table,
return no icon; otherwise return the md5 of the icon URL. -/
def download_favicon (domain : String) (iconHref : Option String)
    (resp : HttpResponse) : Option String :=
  let favicon_url := get_favicon_url_from_html domain iconHref
  if resp.status = 200 then
    let ct := resp.contentType.data.map lowerChar
    if "text/html".data.isPrefixOf ct then none
    else
      match extOfContentType ct with
      | none => none
      | some _ => some (md5hex favicon_url)
  else none

end favicons

namespace web

/-- `web.py` `download_favicon`: any 200 response is accepted — the content
type only refines the file extension (default `ico`); there is no HTML check
and no unknown-type rejection. -/
def download_favicon (domain : String) (iconHref : Option String)
    (resp : HttpResponse) : Option String :=
  let favicon_url := get_favicon_url_from_html domain iconHref
  if resp.status ≠ 200 then none
  else some (md5hex favicon_url)

end web

/-! ## dashboard.py: task orchestration

Task statuses are the TEXT values stored in `crawl_tasks.status`.  The model
follows one task through `cancel_task` and one `background_crawler` iteration,
with Python's `try/finally` semantics made explicit: `continue` inside the
`try` runs the `finally` block, and `Queue.task_done` raises `ValueError` when
called more times than items were enqueued. -/

namespace dashboard

/-- The per-task state visible to the dispatcher: the stored status, whether
the id is in the `canceled_tasks` registry, and the queue's count of
unfinished items. -/
structure TaskState where
  status : String
  registry : Bool
  unfinished : Nat
deriving DecidableEq, Repr

/-- `dashboard.py` `cancel_task`: set the stored status to `canceled` only if
it is still pending/running, then add the id to `canceled_tasks`. -/
def cancel_task (t : TaskState) : TaskState :=
  { t with
      status := if t.status = "pending" || t.status = "running" then "canceled" else t.status,
      registry := true }

/-- `queue.Queue.task_done`: decrement the unfinished count, raising
`ValueError` when it is already zero. -/
def taskDone (u : Nat) : Except String Nat :=
  match u with
  | 0 => .error "task_done() called too many times"
  | Nat.succ n => .ok n

/-- The result of one `background_crawler` iteration: the final task state and
whether an exception escaped the `finally` block (killing the dispatcher
thread before `canceled_tasks.discard` ran). -/
structure DispatchResult where
  state : TaskState
  crashed : Bool
deriving DecidableEq, Repr

/-- One iteration of `dashboard.py` `background_crawler` for a crawl task.
If the stored status is already `canceled`, the skip path closes the
connection, calls `task_done()` and `continue`s — which runs the `finally`
block, calling `task_done()` a second time; only if that does not raise is the
id discarded from the registry.  Otherwise the task runs (`cancelDuringRun`
models a `cancel_task` request arriving mid-execution, `runRaises` an
exception from the crawl); the final status is `canceled` if the id is in the
registry, else `completed`, and the `finally` block does its single
`task_done()` and discards the id. -/
def background_crawler_step (t0 : TaskState) (cancelDuringRun runRaises : Bool) :
    DispatchResult :=
  if t0.status = "canceled" then
    match taskDone t0.unfinished with
    | .error _ => { state := t0, crashed := true }
    | .ok u1 =>
      match taskDone u1 with
      | .error _ => { state := { t0 with unfinished := u1 }, crashed := true }
      | .ok u2 => { state := { t0 with unfinished := u2, registry := false }, crashed := false }
  else
    let t1 := { t0 with status := "running" }
    let t2 := if cancelDuringRun then cancel_task t1 else t1
    let t3 :=
      if runRaises then { t2 with status := "failed: error" }
      else if t2.registry then { t2 with status := "canceled" }
      else { t2 with status := "completed" }
    match taskDone t3.unfinished with
    | .error _ => { state := t3, crashed := true }
    | .ok u1 => { state := { t3 with unfinished := u1, registry := false }, crashed := false }

/-- The `crawl_tasks` table, as id/status pairs. -/
abbrev TaskTable := List (Nat × String)

/-- `dashboard.py` `reset_running_tasks`:
`UPDATE crawl_tasks SET status = 'failed' WHERE status IN ('running', 'pending')`. -/
def reset_running_tasks (tasks : TaskTable) : TaskTable :=
  tasks.map (fun p =>
    if p.2 = "running" || p.2 = "pending" then (p.1, "failed") else p)

/-- The startup sequence of `dashboard.py` `__main__` up to the point the
dispatcher thread is started: the task table the dispatcher first sees is the
reset one. -/
def startup_table (tasks : TaskTable) : TaskTable := reset_running_tasks tasks

end dashboard

/-! # Lemma layer -/

/-! ## Character facts -/

theorem upperEnum (c : Char) (h : isAsciiUpperC c = true) :
    c = 'A' ∨ c = 'B' ∨ c = 'C' ∨ c = 'D' ∨ c = 'E' ∨ c = 'F' ∨ c = 'G' ∨ c = 'H' ∨
    c = 'I' ∨ c = 'J' ∨ c = 'K' ∨ c = 'L' ∨ c = 'M' ∨ c = 'N' ∨ c = 'O' ∨ c = 'P' ∨
    c = 'Q' ∨ c = 'R' ∨ c = 'S' ∨ c = 'T' ∨ c = 'U' ∨ c = 'V' ∨ c = 'W' ∨ c = 'X' ∨
    c = 'Y' ∨ c = 'Z' := by
  simp only [isAsciiUpperC, Bool.and_eq_true, decide_eq_true_eq] at h
  obtain ⟨h1, h2⟩ := h
  rw [Char.le_def] at h1 h2
  have hn1 : 65 ≤ c.toNat := h1
  have hn2 : c.toNat ≤ 90 := h2
  have hd : c.toNat = 65 ∨ c.toNat = 66 ∨ c.toNat = 67 ∨ c.toNat = 68 ∨ c.toNat = 69 ∨
      c.toNat = 70 ∨ c.toNat = 71 ∨ c.toNat = 72 ∨ c.toNat = 73 ∨ c.toNat = 74 ∨
      c.toNat = 75 ∨ c.toNat = 76 ∨ c.toNat = 77 ∨ c.toNat = 78 ∨ c.toNat = 79 ∨
      c.toNat = 80 ∨ c.toNat = 81 ∨ c.toNat = 82 ∨ c.toNat = 83 ∨ c.toNat = 84 ∨
      c.toNat = 85 ∨ c.toNat = 86 ∨ c.toNat = 87 ∨ c.toNat = 88 ∨ c.toNat = 89 ∨
      c.toNat = 90 := by omega
  have ofToNat : ∀ d : Char, c.toNat = d.toNat → c = d := fun d hx =>
    Char.ext (UInt32.ext hx)
  rcases hd with h|h|h|h|h|h|h|h|h|h|h|h|h|h|h|h|h|h|h|h|h|h|h|h|h|h
  all_goals first
    | exact Or.inl (ofToNat _ h)
    | exact ofToNat _ h
    | (refine Or.inr ?_ ; repeat first
        | exact Or.inl (ofToNat _ h)
        | exact ofToNat _ h
        | refine Or.inr ?_)

theorem lowerChar_of_not_upper (c : Char) (h : isAsciiUpperC c = false) : lowerChar c = c := by
  simp [lowerChar, h]

theorem lowerChar_not_upper (c : Char) : isAsciiUpperC (lowerChar c) = false := by
  cases hu : isAsciiUpperC c with
  | false => rw [lowerChar_of_not_upper c hu]; exact hu
  | true =>
    rcases upperEnum c hu with rfl|rfl|rfl|rfl|rfl|rfl|rfl|rfl|rfl|rfl|rfl|rfl|rfl|
      rfl|rfl|rfl|rfl|rfl|rfl|rfl|rfl|rfl|rfl|rfl|rfl|rfl <;> decide

theorem lowerChar_idem (c : Char) : lowerChar (lowerChar c) = lowerChar c :=
  lowerChar_of_not_upper _ (lowerChar_not_upper c)

theorem lowerChar_alpha (c : Char) (h : isAsciiAlphaC c = true) :
    isAsciiAlphaC (lowerChar c) = true := by
  cases hu : isAsciiUpperC c with
  | false => rw [lowerChar_of_not_upper c hu]; exact h
  | true =>
    rcases upperEnum c hu with rfl|rfl|rfl|rfl|rfl|rfl|rfl|rfl|rfl|rfl|rfl|rfl|rfl|
      rfl|rfl|rfl|rfl|rfl|rfl|rfl|rfl|rfl|rfl|rfl|rfl|rfl <;> decide

theorem lowerChar_scheme (c : Char) (h : isSchemeChar c = true) :
    isSchemeChar (lowerChar c) = true := by
  cases hu : isAsciiUpperC c with
  | false => rw [lowerChar_of_not_upper c hu]; exact h
  | true =>
    rcases upperEnum c hu with rfl|rfl|rfl|rfl|rfl|rfl|rfl|rfl|rfl|rfl|rfl|rfl|rfl|
      rfl|rfl|rfl|rfl|rfl|rfl|rfl|rfl|rfl|rfl|rfl|rfl|rfl <;> decide

theorem schemeChar_ne_colon (c : Char) (h : isSchemeChar c = true) : c ≠ ':' := by
  intro he; subst he; exact absurd h (by decide)

theorem schemeChar_ne_slash (c : Char) (h : isSchemeChar c = true) : c ≠ '/' := by
  intro he; subst he; exact absurd h (by decide)

theorem schemeChar_ne_hash (c : Char) (h : isSchemeChar c = true) : c ≠ '#' := by
  intro he; subst he; exact absurd h (by decide)

theorem schemeChar_ne_qmark (c : Char) (h : isSchemeChar c = true) : c ≠ '?' := by
  intro he; subst he; exact absurd h (by decide)

theorem schemeChar_safe (c : Char) (h : isSchemeChar c = true) :
    isUnsafeUrlByte c = false := by
  cases hb : isUnsafeUrlByte c with
  | false => rfl
  | true =>
    exfalso
    simp only [isUnsafeUrlByte, Bool.or_eq_true, decide_eq_true_eq] at hb
    rcases hb with (rfl|rfl)|rfl <;> exact absurd h (by decide)

/-- An ASCII letter: the value range is 65-90 or 97-122, so in particular the
character is printable (value > 0x20). -/
theorem alpha_val_gt (c : Char) (h : isAsciiAlphaC c = true) : ¬ c.val ≤ 0x20 := by
  simp only [isAsciiAlphaC, isAsciiLowerC, isAsciiUpperC, Bool.or_eq_true,
    Bool.and_eq_true, decide_eq_true_eq] at h
  intro hle
  rcases h with ⟨h1, _⟩ | ⟨h1, _⟩ <;>
  · rw [Char.le_def] at h1
    have : (97 : ℕ) ≤ c.toNat ∨ (65 : ℕ) ≤ c.toNat := by
      first | exact Or.inl h1 | exact Or.inr h1
    have hle2 : c.toNat ≤ 0x20 := hle
    omega

theorem validScheme_chars (s : List Char) (h : validScheme s = true) :
    ∀ c ∈ s, isSchemeChar c = true := by
  match s with
  | [] => simp [validScheme] at h
  | a :: rest =>
    simp only [validScheme, Bool.and_eq_true, List.all_eq_true] at h
    intro c hc
    rcases List.mem_cons.mp hc with rfl | hc2
    · simp [isSchemeChar, h.1]
    · exact h.2 c hc2

theorem validScheme_lower (s : List Char) (h : validScheme s = true) :
    validScheme (s.map lowerChar) = true := by
  match s with
  | [] => simp [validScheme] at h
  | a :: rest =>
    simp only [validScheme, Bool.and_eq_true, List.all_eq_true] at h
    simp only [List.map_cons, validScheme, Bool.and_eq_true, List.all_eq_true]
    refine ⟨lowerChar_alpha a h.1, ?_⟩
    intro c hc
    rcases List.mem_map.mp hc with ⟨d, hd, rfl⟩
    exact lowerChar_scheme d (h.2 d hd)

theorem map_lowerChar_idem (s : List Char) :
    (s.map lowerChar).map lowerChar = s.map lowerChar := by
  rw [List.map_map]
  exact List.map_congr_left (fun a _ => lowerChar_idem a)

/-! ## listRstrip facts -/

theorem dropWhile_eq_self_of_neg {α : Type} {p : α → Bool} {l : List α}
    (h : ∀ c ∈ l, p c = false) : l.dropWhile p = l := by
  cases l with
  | nil => rfl
  | cons x t => simp [List.dropWhile_cons, h x (List.mem_cons_self x t)]

theorem listRstrip_append (a b : List Char) (h : ∀ c ∈ a, c ≠ '/') :
    listRstrip (a ++ b) = a ++ listRstrip b := by
  unfold listRstrip
  rw [List.reverse_append, List.dropWhile_append]
  have hneg : ∀ c ∈ a.reverse, (fun c => (decide (c = '/'))) c = false := by
    intro c hc
    simpa using h c (List.mem_reverse.mp hc)
  by_cases hb : (b.reverse.dropWhile (fun c => decide (c = '/'))) = []
  · rw [hb]
    simp only [List.isEmpty_nil, if_true]
    rw [dropWhile_eq_self_of_neg hneg, List.reverse_reverse]
    simp
  · rw [if_neg (by simpa [List.isEmpty_iff] using hb)]
    rw [List.reverse_append, List.reverse_reverse]

theorem listRstrip_append_ne (a b : List Char) (h : listRstrip b ≠ []) :
    listRstrip (a ++ b) = a ++ listRstrip b := by
  unfold listRstrip at *
  rw [List.reverse_append, List.dropWhile_append]
  have hb : b.reverse.dropWhile (fun c => decide (c = '/')) ≠ [] := by
    intro he
    apply h
    rw [he, List.reverse_nil]
  rw [if_neg (by simpa [List.isEmpty_iff] using hb)]
  rw [List.reverse_append, List.reverse_reverse]

theorem listRstrip_eq_nil_iff (l : List Char) : listRstrip l = [] ↔ ∀ c ∈ l, c = '/' := by
  unfold listRstrip
  rw [List.reverse_eq_nil_iff, List.dropWhile_eq_nil_iff]
  constructor
  · intro h c hc
    simpa using h c (List.mem_reverse.mpr hc)
  · intro h c hc
    simpa using h c (List.mem_reverse.mp hc)

theorem listRstrip_getLast (l : List Char) : (listRstrip l).getLast? ≠ some '/' := by
  unfold listRstrip
  rw [List.getLast?_reverse]
  have hw := List.head?_dropWhile_not (fun c => (decide (c = '/'))) l.reverse
  cases hh : (l.reverse.dropWhile fun c => decide (c = '/')).head? with
  | none => simp
  | some x =>
    rw [hh] at hw
    intro hc
    injection hc with hx
    subst hx
    simp at hw

theorem listRstrip_eq_self (l : List Char) (h : l.getLast? ≠ some '/') : listRstrip l = l := by
  unfold listRstrip
  cases hrev : l.reverse with
  | nil =>
    have : l = [] := List.reverse_eq_nil_iff.mp hrev
    simp [this]
  | cons x t =>
    have hx : x ≠ '/' := by
      intro hxe
      apply h
      rw [← List.head?_reverse, hrev, hxe]
      rfl
    rw [List.dropWhile_cons, if_neg (by simpa using hx), ← hrev, List.reverse_reverse]

theorem listRstrip_split (l : List Char) :
    listRstrip l ++ (l.reverse.takeWhile (fun c => decide (c = '/'))).reverse = l := by
  unfold listRstrip
  rw [← List.reverse_append, List.takeWhile_append_dropWhile, List.reverse_reverse]

theorem listRstrip_head? (l : List Char) (h : listRstrip l ≠ []) :
    (listRstrip l).head? = l.head? := by
  conv_rhs => rw [← listRstrip_split l]
  rw [List.head?_append_of_ne_nil _ h]

theorem mem_listRstrip (l : List Char) (c : Char) (h : c ∈ listRstrip l) : c ∈ l := by
  unfold listRstrip at h
  rw [List.mem_reverse] at h
  exact List.mem_reverse.mp (List.Sublist.mem h (List.dropWhile_sublist _))

/-! ## splitFirst / splitParams / splitScheme / splitNetloc facts -/

theorem splitFirst_of_not_mem (ch : Char) (l : List Char) (h : ch ∉ l) :
    splitFirst ch l = (l, []) := by
  have ht : l.takeWhile (fun c => decide (c ≠ ch)) = l := by
    refine List.takeWhile_eq_self_iff.mpr (fun x hx => ?_)
    simp only [decide_eq_true_eq]
    rintro rfl
    exact h hx
  simp only [splitFirst]
  rw [ht]
  simp

theorem splitFirst_fst_sub (ch : Char) (l : List Char) (c : Char)
    (h : c ∈ (splitFirst ch l).1) : c ∈ l := by
  simp only [splitFirst] at h
  split at h
  · exact List.Sublist.mem h (List.takeWhile_sublist _)
  · exact h

theorem splitFirst_fst_ne (ch : Char) (l : List Char) (c : Char)
    (h : c ∈ (splitFirst ch l).1) : c ≠ ch ∨ (splitFirst ch l).1 = l := by
  simp only [splitFirst] at h ⊢
  split at h <;> rename_i hcond
  · left
    have := List.mem_takeWhile_imp h
    simpa using this
  · right
    rw [if_neg hcond]

theorem splitFirst_fst_ne_mem (ch : Char) (l : List Char) (c : Char)
    (h : c ∈ (splitFirst ch l).1) : c ≠ ch := by
  simp only [splitFirst] at h
  split at h <;> rename_i hcond
  · have := List.mem_takeWhile_imp h
    simpa using this
  · have hlen : (l.takeWhile (fun c => decide (c ≠ ch))).length = l.length := by
      have hle := List.Sublist.length_le (List.takeWhile_sublist
        (l := l) (fun c => decide (c ≠ ch)))
      omega
    have heq := List.Sublist.eq_of_length (List.takeWhile_sublist _) hlen
    rw [← heq] at h
    have := List.mem_takeWhile_imp h
    simpa using this

theorem takeWhile_head {α : Type} (p : α → Bool) (l : List α) :
    l.takeWhile p = [] ∨ (l.takeWhile p).head? = l.head? := by
  cases l with
  | nil => left; rfl
  | cons x t =>
    rw [List.takeWhile_cons]
    by_cases hx : p x = true
    · right; rw [if_pos hx]; rfl
    · left; rw [if_neg hx]

theorem splitFirst_head (ch : Char) (l : List Char) :
    (splitFirst ch l).1 = [] ∨ (splitFirst ch l).1.head? = l.head? := by
  simp only [splitFirst]
  split
  · exact takeWhile_head _ l
  · right; rfl

theorem seg_length_lt (m : List Char) (h : '/' ∈ m) :
    ((m.reverse.takeWhile (fun c => decide (c ≠ '/'))).reverse).length < m.length := by
  rw [List.length_reverse]
  have hsub := List.takeWhile_sublist (l := m.reverse) (fun c => decide (c ≠ '/'))
  have hle := List.Sublist.length_le hsub
  rw [List.length_reverse] at hle
  rcases Nat.lt_or_ge (m.reverse.takeWhile (fun c => decide (c ≠ '/'))).length m.length with hlt | hge
  · exact hlt
  · exfalso
    have hlen : (m.reverse.takeWhile (fun c => decide (c ≠ '/'))).length = m.reverse.length := by
      rw [List.length_reverse]; omega
    have heq := List.Sublist.eq_of_length hsub hlen
    have hall := List.takeWhile_eq_self_iff.mp heq
    have := hall '/' (List.mem_reverse.mpr h)
    simp at this

theorem mem_splitParams_fst (m : List Char) (c : Char) (h : c ∈ (splitParams m).1) :
    c ∈ m := by
  simp only [splitParams] at h
  split at h
  · split at h
    · split at h
      · rcases List.mem_append.mp h with hc | hc
        · exact List.Sublist.mem hc (List.take_sublist _ _)
        · have hseg := splitFirst_fst_sub ';' _ _ hc
          rw [List.mem_reverse] at hseg
          exact List.mem_reverse.mp (List.Sublist.mem hseg (List.takeWhile_sublist _))
      · exact h
    · exact splitFirst_fst_sub ';' _ _ h
  · exact h

theorem splitParams_head (m : List Char) :
    (splitParams m).1 = [] ∨ (splitParams m).1.head? = m.head? := by
  simp only [splitParams]
  split <;> rename_i hsemi
  · split <;> rename_i hslash
    · split
      · have hlt := seg_length_lt m (by simpa using hslash)
        have hk : m.length - ((m.reverse.takeWhile (fun c => decide (c ≠ '/'))).reverse).length ≠ 0 := by
          omega
        have hm : m ≠ [] := by
          intro he
          subst he
          simp at hslash
        right
        rw [List.head?_append_of_ne_nil, List.head?_take, if_neg hk]
        · intro he
          have : m.take (m.length - ((m.reverse.takeWhile (fun c => decide (c ≠ '/'))).reverse).length) = [] := he
          rw [List.take_eq_nil_iff] at this
          rcases this with h0 | h0
          · exact hk h0
          · exact hm h0
      · right; rfl
    · exact splitFirst_head ';' m
  · right; rfl

theorem splitNetloc_fst_end (x : List Char) (c : Char) (h : c ∈ (splitNetloc x).1) :
    isNetlocEnd c = false := by
  unfold splitNetloc at h
  split at h
  · have := List.mem_takeWhile_imp h
    simpa using this
  · simp at h

theorem splitNetloc_fst_sub (x : List Char) (c : Char) (h : c ∈ (splitNetloc x).1) :
    c ∈ x := by
  unfold splitNetloc at h
  split at h
  · exact List.mem_cons_of_mem _ (List.mem_cons_of_mem _
      (List.Sublist.mem h (List.takeWhile_sublist _)))
  · simp at h

theorem splitNetloc_snd_sub (x : List Char) (c : Char) (h : c ∈ (splitNetloc x).2) :
    c ∈ x := by
  unfold splitNetloc at h
  split at h
  · exact List.mem_cons_of_mem _ (List.mem_cons_of_mem _
      (List.Sublist.mem h (List.dropWhile_sublist _)))
  · exact h

theorem splitNetloc_snd_head (x : List Char) (hfst : (splitNetloc x).1 ≠ []) :
    (splitNetloc x).2 = [] ∨ ∃ c, (splitNetloc x).2.head? = some c ∧ isNetlocEnd c = true := by
  unfold splitNetloc at hfst ⊢
  split at hfst
  · rename_i rest
    have hw := List.head?_dropWhile_not (fun c => decide ¬ (isNetlocEnd c = true)) rest
    cases hh : (rest.dropWhile (fun c => decide ¬ (isNetlocEnd c = true))).head? with
    | none =>
      left
      exact List.head?_eq_none_iff.mp hh
    | some c =>
      rw [hh] at hw
      exact Or.inr ⟨c, rfl, by simpa using hw⟩
  · exact absurd rfl hfst

theorem splitScheme_snd_sub (x : List Char) (c : Char) (h : c ∈ (splitScheme x).2) :
    c ∈ x := by
  simp only [splitScheme] at h
  split at h
  · exact List.Sublist.mem h (List.drop_sublist _ _)
  · exact h

theorem splitScheme_fst_shape (x : List Char) :
    (splitScheme x).1 = [] ∨
    ∃ pre, validScheme pre = true ∧ (splitScheme x).1 = pre.map lowerChar := by
  simp only [splitScheme]
  split <;> rename_i hcond
  · right
    refine ⟨x.takeWhile (fun c => decide (c ≠ ':')), ?_, rfl⟩
    exact (Bool.and_eq_true _ _ |>.mp hcond).2
  · left; rfl

/-! ## Structural facts about urlparseChars components -/

theorem urlparseChars_scheme_shape (l0 : List Char) :
    (urlparseChars l0).scheme = [] ∨
    (validScheme (urlparseChars l0).scheme = true ∧
     (urlparseChars l0).scheme.map lowerChar = (urlparseChars l0).scheme) := by
  have hs : (urlparseChars l0).scheme = (splitScheme (preprocessUrl l0)).1 := rfl
  rw [hs]
  rcases splitScheme_fst_shape (preprocessUrl l0) with h | ⟨pre, hv, hpre⟩
  · left; exact h
  · right
    rw [hpre]
    exact ⟨validScheme_lower pre hv, map_lowerChar_idem pre⟩

theorem urlparseChars_netloc_end (l0 : List Char) (c : Char)
    (h : c ∈ (urlparseChars l0).netloc) : isNetlocEnd c = false :=
  splitNetloc_fst_end _ _ h

theorem urlparseChars_netloc_sub (l0 : List Char) (c : Char)
    (h : c ∈ (urlparseChars l0).netloc) : c ∈ preprocessUrl l0 :=
  splitScheme_snd_sub _ _ (splitNetloc_fst_sub _ _ h)

theorem urlparseChars_path_qr (l0 : List Char) (c : Char)
    (h : c ∈ (urlparseChars l0).path) :
    c ∈ (splitFirst '?' (splitFirst '#'
          (splitNetloc (splitScheme (preprocessUrl l0)).2).2).1).1 := by
  simp only [urlparseChars] at h
  split at h
  · exact mem_splitParams_fst _ _ h
  · exact h

theorem urlparseChars_path_facts (l0 : List Char) (c : Char)
    (h : c ∈ (urlparseChars l0).path) :
    c ≠ '#' ∧ c ≠ '?' ∧ c ∈ preprocessUrl l0 := by
  have hq := urlparseChars_path_qr l0 c h
  have hfr := splitFirst_fst_sub _ _ _ hq
  refine ⟨splitFirst_fst_ne_mem _ _ _ hfr, splitFirst_fst_ne_mem _ _ _ hq, ?_⟩
  exact splitScheme_snd_sub _ _ (splitNetloc_snd_sub _ _ (splitFirst_fst_sub _ _ _ hfr))

theorem mem_preprocessUrl_safe (l0 : List Char) (c : Char)
    (h : c ∈ preprocessUrl l0) : isUnsafeUrlByte c = false := by
  unfold preprocessUrl at h
  have := (List.mem_filter.mp h).2
  simpa using this

theorem mem_preprocessUrl_sub (l0 : List Char) (c : Char)
    (h : c ∈ preprocessUrl l0) : c ∈ l0 := by
  unfold preprocessUrl at h
  have h1 := (List.mem_filter.mp h).1
  exact List.Sublist.mem h1 (List.dropWhile_sublist _)


/-- When the parsed netloc is nonempty, the parsed path is empty or starts
with `/` (the netloc split stops at `/`, `?` or `#`, and a leading `?` or `#`
empties the path via the query/fragment splits). -/
theorem urlparseChars_path_head (l0 : List Char)
    (hn : (urlparseChars l0).netloc ≠ []) :
    (urlparseChars l0).path = [] ∨ (urlparseChars l0).path.head? = some '/' := by
  have hfst : (splitNetloc (splitScheme (preprocessUrl l0)).2).1 ≠ [] := hn
  have hRhead := splitNetloc_snd_head _ hfst
  have hpath_head : (urlparseChars l0).path = [] ∨
      (urlparseChars l0).path.head? =
        (splitNetloc (splitScheme (preprocessUrl l0)).2).2.head? := by
    have hfr := splitFirst_head '#' (splitNetloc (splitScheme (preprocessUrl l0)).2).2
    have hqr := splitFirst_head '?'
      (splitFirst '#' (splitNetloc (splitScheme (preprocessUrl l0)).2).2).1
    have hpp : (urlparseChars l0).path = [] ∨
        (urlparseChars l0).path.head? =
          (splitFirst '?' (splitFirst '#'
            (splitNetloc (splitScheme (preprocessUrl l0)).2).2).1).1.head? := by
      have hview : (urlparseChars l0).path =
          (if usesParams.contains (splitScheme (preprocessUrl l0)).1 &&
              (splitFirst '?' (splitFirst '#'
                (splitNetloc (splitScheme (preprocessUrl l0)).2).2).1).1.contains ';' then
            splitParams (splitFirst '?' (splitFirst '#'
              (splitNetloc (splitScheme (preprocessUrl l0)).2).2).1).1
          else ((splitFirst '?' (splitFirst '#'
            (splitNetloc (splitScheme (preprocessUrl l0)).2).2).1).1, [])).1 := rfl
      rw [hview]
      split
      · exact splitParams_head _
      · right; rfl
    rcases hpp with h1 | h1
    · left; exact h1
    rcases hqr with h2 | h2
    · left
      refine List.head?_eq_none_iff.mp ?_
      rw [h1, h2]
      rfl
    rcases hfr with h3 | h3
    · left
      refine List.head?_eq_none_iff.mp ?_
      rw [h1, h2, h3]
      rfl
    · right; rw [h1, h2, h3]
  rcases hpath_head with hp | hp
  · left; exact hp
  rcases hRhead with hr | ⟨c, hc, hend⟩
  · left
    rw [hr] at hp
    cases hpe : (urlparseChars l0).path with
    | nil => rfl
    | cons a t => rw [hpe] at hp; simp at hp
  · rw [hc] at hp
    have hcend : c = '/' ∨ c = '?' ∨ c = '#' := by
      have : (decide (c = '/') || decide (c = '?') || decide (c = '#')) = true := hend
      simpa [Bool.or_eq_true, or_assoc] using this
    rcases hcend with rfl | rfl | rfl
    · right; exact hp
    · left
      cases hpe : (urlparseChars l0).path with
      | nil => rfl
      | cons a t =>
        rw [hpe] at hp
        have ha : a = '?' := by simpa using hp
        subst ha
        have := urlparseChars_path_facts l0 '?' (by rw [hpe]; exact List.mem_cons_self _ _)
        exact absurd rfl this.2.1
    · left
      cases hpe : (urlparseChars l0).path with
      | nil => rfl
      | cons a t =>
        rw [hpe] at hp
        have ha : a = '#' := by simpa using hp
        subst ha
        have := urlparseChars_path_facts l0 '#' (by rw [hpe]; exact List.mem_cons_self _ _)
        exact absurd rfl this.1

/-! ## Parsing a rebuilt `scheme://netlocpath` string -/

theorem preprocessUrl_eq_self (l : List Char)
    (hhead : ∀ c, l.head? = some c → ¬ c.val ≤ 0x20)
    (hclean : ∀ c ∈ l, isUnsafeUrlByte c = false) : preprocessUrl l = l := by
  unfold preprocessUrl
  have hd : l.dropWhile (fun c => decide (c.val ≤ 0x20)) = l := by
    cases l with
    | nil => rfl
    | cons x t =>
      rw [List.dropWhile_cons, if_neg]
      simpa using hhead x rfl
  rw [hd]
  refine List.filter_eq_self.mpr (fun a ha => ?_)
  simp [hclean a ha]

theorem contains_eq_false_of_not_mem (l : List Char) (c : Char) (h : c ∉ l) :
    l.contains c = false := by
  cases hc : l.contains c with
  | false => rfl
  | true => exact absurd (List.mem_of_elem_eq_true hc) h

theorem validScheme_head_alpha (s : List Char) (hvs : validScheme s = true) :
    ∃ a t, s = a :: t ∧ isAsciiAlphaC a = true := by
  match s with
  | [] => simp [validScheme] at hvs
  | a :: t =>
    simp only [validScheme, Bool.and_eq_true] at hvs
    exact ⟨a, t, rfl, hvs.1⟩

theorem splitScheme_append (s rest : List Char) (hvs : validScheme s = true)
    (hlow : s.map lowerChar = s) :
    splitScheme (s ++ ':' :: rest) = (s, rest) := by
  have hchars := validScheme_chars s hvs
  have hpre : (s ++ ':' :: rest).takeWhile (fun c => decide (c ≠ ':')) = s := by
    rw [List.takeWhile_append_of_pos (fun a ha => by
      simpa using schemeChar_ne_colon a (hchars a ha))]
    rw [List.takeWhile_cons]
    simp
  simp only [splitScheme]
  rw [hpre]
  have hlen : s.length < (s ++ ':' :: rest).length := by
    rw [List.length_append, List.length_cons]
    omega
  rw [if_pos (by simp [hlen, hvs])]
  refine Prod.ext ?_ ?_
  · exact hlow
  · show (s ++ ':' :: rest).drop (s.length + 1) = rest
    have h1 : (s ++ ':' :: rest).drop (s.length + 1) =
        ((s ++ ':' :: rest).drop s.length).drop 1 := by
      rw [List.drop_drop]
    rw [h1, List.drop_left]
    rfl

theorem parse_scheme_colon (s : List Char) (hvs : validScheme s = true)
    (hlow : s.map lowerChar = s) :
    urlparseChars (s ++ [':']) = ⟨s, [], [], [], [], []⟩ := by
  obtain ⟨a, t, rfl, halpha⟩ := validScheme_head_alpha s hvs
  have hchars := validScheme_chars _ hvs
  have hpre : preprocessUrl ((a :: t) ++ [':']) = (a :: t) ++ [':'] := by
    refine preprocessUrl_eq_self _ (fun c hc => ?_) (fun c hc => ?_)
    · have hac : a = c := by simpa using hc
      exact hac ▸ alpha_val_gt a halpha
    · rcases List.mem_append.mp hc with hc2 | hc2
      · exact schemeChar_safe c (hchars c hc2)
      · have : c = ':' := by simpa using hc2
        subst this
        rfl
  have hsch : splitScheme ((a :: t) ++ ':' :: []) = (a :: t, []) :=
    splitScheme_append _ _ hvs hlow
  simp only [urlparseChars]
  rw [show ((a :: t) ++ [':']) = ((a :: t) ++ ':' :: []) from rfl] at hpre
  rw [hpre, hsch]
  simp [splitNetloc, splitFirst]

theorem parse_build_full (s r : List Char) (hvs : validScheme s = true)
    (hlow : s.map lowerChar = s)
    (hr : ∀ c ∈ r, isUnsafeUrlByte c = false) :
    urlparseChars (s ++ ':' :: '/' :: '/' :: r) =
      parseAfterNetloc s
        (r.takeWhile (fun c => decide ¬ (isNetlocEnd c = true)))
        (r.dropWhile (fun c => decide ¬ (isNetlocEnd c = true))) := by
  obtain ⟨a, t, hs, halpha⟩ := validScheme_head_alpha s hvs
  have hchars := validScheme_chars _ hvs
  have hpre : preprocessUrl (s ++ ':' :: '/' :: '/' :: r) = s ++ ':' :: '/' :: '/' :: r := by
    refine preprocessUrl_eq_self _ (fun c hc => ?_) (fun c hc => ?_)
    · have hac : a = c := by
        subst hs
        simpa using hc
      exact hac ▸ alpha_val_gt a halpha
    · rcases List.mem_append.mp hc with hc2 | hc2
      · exact schemeChar_safe c (hchars c hc2)
      · simp only [List.mem_cons] at hc2
        rcases hc2 with rfl | rfl | rfl | hc3
        · rfl
        · rfl
        · rfl
        · exact hr c hc3
  have hsch : splitScheme (s ++ ':' :: '/' :: '/' :: r) = (s, '/' :: '/' :: r) :=
    splitScheme_append _ _ hvs hlow
  simp only [urlparseChars]
  rw [hpre, hsch]
  rfl

theorem rstrip_build (s n p : List Char) (hvs : validScheme s = true)
    (_hn_slash : ∀ c ∈ n, c ≠ '/') :
    listRstrip (s ++ ':' :: '/' :: '/' :: (n ++ p)) =
      if listRstrip (n ++ p) = [] then s ++ [':']
      else s ++ ':' :: '/' :: '/' :: listRstrip (n ++ p) := by
  have hchars := validScheme_chars s hvs
  have hassoc : s ++ ':' :: '/' :: '/' :: (n ++ p) =
      (s ++ [':']) ++ ('/' :: '/' :: (n ++ p)) := by
    simp
  rw [hassoc]
  rw [listRstrip_append _ _ (fun c hc => by
    rcases List.mem_append.mp hc with hc2 | hc2
    · exact schemeChar_ne_slash c (hchars c hc2)
    · have : c = ':' := by simpa using hc2
      subst this
      decide)]
  by_cases ht : listRstrip (n ++ p) = []
  · rw [if_pos ht]
    have hall : ∀ c ∈ n ++ p, c = '/' := (listRstrip_eq_nil_iff _).mp ht
    have h2 : listRstrip ('/' :: '/' :: (n ++ p)) = [] := by
      refine (listRstrip_eq_nil_iff _).mpr (fun c hc => ?_)
      simp only [List.mem_cons] at hc
      rcases hc with rfl | rfl | hc2
      · rfl
      · rfl
      · exact hall c hc2
    rw [h2, List.append_nil]
  · rw [if_neg ht]
    have hsh : ('/' :: '/' :: (n ++ p)) = ['/', '/'] ++ (n ++ p) := rfl
    rw [hsh, listRstrip_append_ne _ _ ht]
    simp

theorem netloc_rebuild (s n p : List Char) (hvs : validScheme s = true)
    (hlow : s.map lowerChar = s)
    (hn : ∀ c ∈ n, isNetlocEnd c = false)
    (hnu : ∀ c ∈ n, isUnsafeUrlByte c = false)
    (hpu : ∀ c ∈ p, isUnsafeUrlByte c = false)
    (hphead : p = [] ∨ p.head? = some '/')
    (hne : n ≠ []) :
    (urlparseChars (listRstrip (s ++ ':' :: '/' :: '/' :: (n ++ p)))).netloc = n := by
  have hn_slash : ∀ c ∈ n, c ≠ '/' := fun c hc he => by
    subst he
    exact absurd (hn _ hc) (by decide)
  have ht : listRstrip (n ++ p) = n ++ listRstrip p := listRstrip_append n p hn_slash
  have htne : listRstrip (n ++ p) ≠ [] := by
    rw [ht]
    intro he
    exact hne (List.append_eq_nil.mp he).1
  rw [rstrip_build s n p hvs hn_slash, if_neg htne, ht]
  have hru : ∀ c ∈ n ++ listRstrip p, isUnsafeUrlByte c = false := by
    intro c hc
    rcases List.mem_append.mp hc with hc2 | hc2
    · exact hnu c hc2
    · exact hpu c (mem_listRstrip _ _ hc2)
  rw [parse_build_full s _ hvs hlow hru]
  show (n ++ listRstrip p).takeWhile (fun c => decide ¬ (isNetlocEnd c = true)) = n
  rw [List.takeWhile_append_of_pos (fun c hc => by simp [hn c hc])]
  cases hp2 : listRstrip p with
  | nil => simp
  | cons c0 t0 =>
    have hpne : p ≠ [] := by
      intro he
      rw [he] at hp2
      simp [listRstrip] at hp2
    have hhd : (listRstrip p).head? = p.head? := listRstrip_head? p (by rw [hp2]; simp)
    rcases hphead with he | hh
    · exact absurd he hpne
    · rw [hp2] at hhd
      have hc0 : c0 = '/' := by
        rw [hh] at hhd
        simpa using hhd
      subst hc0
      rw [List.takeWhile_cons, if_neg (by decide)]
      simp

/-- Re-parsing and rebuilding a string of the form produced by
`web.py` `normalize_url` is the identity, for a clean path (no `?`, `#`, `;`). -/
theorem normalize_rebuild (s n p : List Char) (hvs : validScheme s = true)
    (hlow : s.map lowerChar = s)
    (hn : ∀ c ∈ n, isNetlocEnd c = false)
    (hnu : ∀ c ∈ n, isUnsafeUrlByte c = false)
    (hpu : ∀ c ∈ p, isUnsafeUrlByte c = false)
    (hpq : '?' ∉ p) (hpf : '#' ∉ p) (hpsemi : ';' ∉ p) :
    (urlparseChars (listRstrip (s ++ ':' :: '/' :: '/' :: (n ++ p)))).scheme ++
      ':' :: '/' :: '/' ::
      ((urlparseChars (listRstrip (s ++ ':' :: '/' :: '/' :: (n ++ p)))).netloc ++
       (urlparseChars (listRstrip (s ++ ':' :: '/' :: '/' :: (n ++ p)))).path) =
      s ++ ':' :: '/' :: '/' ::
        (if listRstrip (n ++ p) = [] then [] else listRstrip (n ++ p)) ∧
    listRstrip (listRstrip (s ++ ':' :: '/' :: '/' :: (n ++ p))) =
      listRstrip (s ++ ':' :: '/' :: '/' :: (n ++ p)) := by
  have hn_slash : ∀ c ∈ n, c ≠ '/' := fun c hc he => by
    subst he
    exact absurd (hn _ hc) (by decide)
  have ht : listRstrip (n ++ p) = n ++ listRstrip p := listRstrip_append n p hn_slash
  rw [rstrip_build s n p hvs hn_slash]
  by_cases htnil : listRstrip (n ++ p) = []
  · rw [if_pos htnil, if_pos htnil]
    have hpc := parse_scheme_colon s hvs hlow
    rw [show s ++ [':'] = s ++ ':' :: [] from rfl] at hpc
    rw [hpc]
    constructor
    · simp
    · refine listRstrip_eq_self _ ?_
      rw [List.getLast?_append_of_ne_nil _ (by simp : [':'] ≠ ([] : List Char))]
      simp
  · rw [if_neg htnil, if_neg htnil]
    have hru : ∀ c ∈ listRstrip (n ++ p), isUnsafeUrlByte c = false := by
      intro c hc
      rw [ht] at hc
      rcases List.mem_append.mp hc with hc2 | hc2
      · exact hnu c hc2
      · exact hpu c (mem_listRstrip _ _ hc2)
    rw [parse_build_full s _ hvs hlow hru]
    set N := (listRstrip (n ++ p)).takeWhile (fun c => decide ¬ (isNetlocEnd c = true)) with hN
    set R := (listRstrip (n ++ p)).dropWhile (fun c => decide ¬ (isNetlocEnd c = true)) with hR
    have hNR : N ++ R = listRstrip (n ++ p) := List.takeWhile_append_dropWhile _ _
    -- every character of R lies in (listRstrip p), hence in p
    have hRsub : ∀ c ∈ R, c ∈ p := by
      intro c hc
      rw [hR, ht, List.dropWhile_append_of_pos (fun a ha => by simp [hn a ha])] at hc
      exact mem_listRstrip _ _ (List.Sublist.mem hc (List.dropWhile_sublist _))
    have hRf : '#' ∉ R := fun hc => hpf (hRsub _ hc)
    have hRq : '?' ∉ R := fun hc => hpq (hRsub _ hc)
    have hRs : ';' ∉ R := fun hc => hpsemi (hRsub _ hc)
    have hfr : splitFirst '#' R = (R, []) := splitFirst_of_not_mem _ _ hRf
    have hqr : splitFirst '?' R = (R, []) := splitFirst_of_not_mem _ _ hRq
    have hparts : parseAfterNetloc s N R = ⟨s, N, R, [], [], []⟩ := by
      simp only [parseAfterNetloc, hfr, hqr]
      rw [contains_eq_false_of_not_mem _ _ hRs]
      simp
    rw [hparts]
    constructor
    · show s ++ ':' :: '/' :: '/' :: (N ++ R) = _
      rw [hNR]
    · -- the rstripped string ends in a non-slash, so a second rstrip is a no-op
      refine listRstrip_eq_self _ ?_
      have hshape : s ++ ':' :: '/' :: '/' :: listRstrip (n ++ p) =
          (s ++ [':', '/', '/']) ++ listRstrip (n ++ p) := by
        simp
      rw [hshape, List.getLast?_append_of_ne_nil _ htnil]
      exact listRstrip_getLast _

/-! ## Claim-level support lemmas -/

/-- The output of `web.normalize_url` contains no `#` and no `?` and does not
end in `/` — the fragment, the query string and trailing slashes are always
stripped, for every input. -/
theorem normalize_url_stripped (u : String) :
    '#' ∉ (web.normalize_url u).data ∧ '?' ∉ (web.normalize_url u).data ∧
    (web.normalize_url u).data.getLast? ≠ some '/' := by
  have hdata : (web.normalize_url u).data =
      listRstrip ((urlparse u).scheme ++ ':' :: '/' :: '/' ::
        ((urlparse u).netloc ++ (urlparse u).path)) := rfl
  rw [hdata]
  have hmemcase : ∀ c, c ∈ listRstrip ((urlparse u).scheme ++ ':' :: '/' :: '/' ::
      ((urlparse u).netloc ++ (urlparse u).path)) →
      c ∈ (urlparse u).scheme ∨ c = ':' ∨ c = '/' ∨
      c ∈ (urlparse u).netloc ∨ c ∈ (urlparse u).path := by
    intro c hc
    have := mem_listRstrip _ _ hc
    rcases List.mem_append.mp this with h1 | h1
    · exact Or.inl h1
    · simp only [List.mem_cons] at h1
      rcases h1 with rfl | rfl | rfl | h2
      · exact Or.inr (Or.inl rfl)
      · exact Or.inr (Or.inr (Or.inl rfl))
      · exact Or.inr (Or.inr (Or.inl rfl))
      · rcases List.mem_append.mp h2 with h3 | h3
        · exact Or.inr (Or.inr (Or.inr (Or.inl h3)))
        · exact Or.inr (Or.inr (Or.inr (Or.inr h3)))
  have hscheme : ∀ c ∈ (urlparse u).scheme, isSchemeChar c = true := by
    intro c hc
    rcases urlparseChars_scheme_shape u.data with hnil | ⟨hvs, _⟩
    · rw [show (urlparse u).scheme = (urlparseChars u.data).scheme from rfl, hnil] at hc
      simp at hc
    · exact validScheme_chars _ hvs c hc
  refine ⟨?_, ?_, listRstrip_getLast _⟩
  · intro hmem
    rcases hmemcase _ hmem with h | h | h | h | h
    · exact schemeChar_ne_hash _ (hscheme _ h) rfl
    · exact absurd h (by decide)
    · exact absurd h (by decide)
    · exact absurd (urlparseChars_netloc_end u.data _ h) (by decide)
    · exact absurd rfl (urlparseChars_path_facts u.data _ h).1
  · intro hmem
    rcases hmemcase _ hmem with h | h | h | h | h
    · exact schemeChar_ne_qmark _ (hscheme _ h) rfl
    · exact absurd h (by decide)
    · exact absurd h (by decide)
    · exact absurd (urlparseChars_netloc_end u.data _ h) (by decide)
    · exact absurd rfl (urlparseChars_path_facts u.data _ h).2.1

/-- `web.normalize_url` is idempotent on every URL with a recognized scheme
and no semicolon. -/
theorem normalize_url_idem (u : String) (hs : (urlparse u).scheme ≠ [])
    (hsemi : ';' ∉ u.data) :
    web.normalize_url (web.normalize_url u) = web.normalize_url u := by
  rcases urlparseChars_scheme_shape u.data with hnil | ⟨hvs, hlow⟩
  · exact absurd hnil hs
  have hn := urlparseChars_netloc_end u.data
  have hnu : ∀ c ∈ (urlparse u).netloc, isUnsafeUrlByte c = false := fun c hc =>
    mem_preprocessUrl_safe _ _ (urlparseChars_netloc_sub u.data c hc)
  have hpu : ∀ c ∈ (urlparse u).path, isUnsafeUrlByte c = false := fun c hc =>
    mem_preprocessUrl_safe _ _ (urlparseChars_path_facts u.data c hc).2.2
  have hpq : '?' ∉ (urlparse u).path := fun hc =>
    absurd rfl (urlparseChars_path_facts u.data _ hc).2.1
  have hpf : '#' ∉ (urlparse u).path := fun hc =>
    absurd rfl (urlparseChars_path_facts u.data _ hc).1
  have hpsemi : ';' ∉ (urlparse u).path := fun hc =>
    hsemi (mem_preprocessUrl_sub _ _ (urlparseChars_path_facts u.data _ hc).2.2)
  have key := normalize_rebuild (urlparse u).scheme (urlparse u).netloc (urlparse u).path
    hvs hlow hn hnu hpu hpq hpf hpsemi
  have hdata2 : web.normalize_url (web.normalize_url u) =
      ⟨listRstrip ((urlparseChars (listRstrip ((urlparse u).scheme ++ ':' :: '/' :: '/' ::
          ((urlparse u).netloc ++ (urlparse u).path)))).scheme ++ ':' :: '/' :: '/' ::
        ((urlparseChars (listRstrip ((urlparse u).scheme ++ ':' :: '/' :: '/' ::
          ((urlparse u).netloc ++ (urlparse u).path)))).netloc ++
         (urlparseChars (listRstrip ((urlparse u).scheme ++ ':' :: '/' :: '/' ::
          ((urlparse u).netloc ++ (urlparse u).path)))).path))⟩ := rfl
  have hdata1 : web.normalize_url u =
      ⟨listRstrip ((urlparse u).scheme ++ ':' :: '/' :: '/' ::
        ((urlparse u).netloc ++ (urlparse u).path))⟩ := rfl
  rw [hdata2, hdata1, key.1]
  by_cases htnil : listRstrip ((urlparse u).netloc ++ (urlparse u).path) = []
  · rw [if_pos htnil]
    have hz := rstrip_build (urlparse u).scheme [] [] hvs (by simp)
    simp only [List.append_nil, listRstrip, List.reverse_nil, List.dropWhile_nil,
      if_pos rfl] at hz
    have hz2 := rstrip_build (urlparse u).scheme (urlparse u).netloc (urlparse u).path hvs
      (fun c hc he => by subst he; exact absurd (hn _ hc) (by decide))
    rw [if_pos htnil] at hz2
    rw [hz2]
    exact congrArg String.mk hz
  · rw [if_neg htnil]
    have hz2 := rstrip_build (urlparse u).scheme (urlparse u).netloc (urlparse u).path hvs
      (fun c hc he => by subst he; exact absurd (hn _ hc) (by decide))
    rw [if_neg htnil] at hz2
    refine congrArg String.mk ?_
    rw [← hz2]
    exact key.2

/-- Every link kept by the link-collection filter of `crawl_page` has the
page's own netloc, also after normalization. -/
theorem collectLinks_same_domain (nu : String) (hrefs : List String)
    (hb : (urlparse nu).netloc ≠ []) :
    ∀ l ∈ web.collectLinks nu hrefs,
      (urlparse l).netloc = (urlparse nu).netloc := by
  intro l hl
  simp only [web.collectLinks] at hl
  rw [List.mem_filterMap] at hl
  obtain ⟨full, _, hfull⟩ := hl
  split at hfull
  case isFalse => exact absurd hfull (by simp)
  case isTrue hcond =>
    injection hfull with hl2
    subst hl2
    simp only [Bool.and_eq_true, Bool.or_eq_true, decide_eq_true_eq] at hcond
    have hsch := hcond.1.1
    have hnet := hcond.2
    have hsne : (urlparse full).scheme ≠ [] := by
      rcases hsch with h | h <;> · rw [h]; decide
    rcases urlparseChars_scheme_shape full.data with hnil | ⟨hvs, hlow⟩
    · exact absurd hnil hsne
    have hbn : (urlparse full).netloc ≠ [] := by
      rw [hnet]
      exact hb
    have hn := urlparseChars_netloc_end full.data
    have hnu : ∀ c ∈ (urlparse full).netloc, isUnsafeUrlByte c = false := fun c hc =>
      mem_preprocessUrl_safe _ _ (urlparseChars_netloc_sub full.data c hc)
    have hpu : ∀ c ∈ (urlparse full).path, isUnsafeUrlByte c = false := fun c hc =>
      mem_preprocessUrl_safe _ _ (urlparseChars_path_facts full.data c hc).2.2
    have hphead := urlparseChars_path_head full.data hbn
    have key := netloc_rebuild (urlparse full).scheme (urlparse full).netloc
      (urlparse full).path hvs hlow hn hnu hpu hphead hbn
    have hview : (urlparse (web.normalize_url full)).netloc =
        (urlparseChars (listRstrip ((urlparse full).scheme ++ ':' :: '/' :: '/' ::
          ((urlparse full).netloc ++ (urlparse full).path)))).netloc := rfl
    rw [hview, key, hnet]

/-- Unrolling `resultupdater.crawl` under constant 429 responses: one attempt per
retry budget plus the initial one, a 5s sleep before every retry, and no
store mutation. -/
theorem ru_crawl_429 (responses : Nat → resultupdater.FetchResult)
    (h : ∀ n, (responses n).status = 429) (fav : Option String) (now : Nat)
    (url : String) (s : Store) (attempt retries : Nat) :
    resultupdater.crawl responses fav now url s attempt retries =
      ⟨retries + 1, List.replicate retries 5, s⟩ := by
  induction retries generalizing attempt with
  | zero => simp [resultupdater.crawl, h attempt]
  | succ k ih =>
    simp [resultupdater.crawl, h attempt, ih (attempt + 1), List.replicate_succ]

theorem ru_crawl_4xx (resp : resultupdater.FetchResult) (h4 : 400 ≤ resp.status)
    (h5 : resp.status < 500) (h429 : resp.status ≠ 429) (fav : Option String)
    (now : Nat) (url : String) (s : Store) (attempt retries : Nat) :
    resultupdater.crawl (fun _ => resp) fav now url s attempt retries =
      ⟨1, [], resultupdater.remove_url s url⟩ := by
  cases retries with
  | zero =>
    simp only [resultupdater.crawl]
    rw [if_neg h429, if_pos (by simp [h4, h5])]
  | succ k =>
    simp only [resultupdater.crawl]
    rw [if_neg h429, if_pos (by simp [h4, h5])]

theorem lookupPage_remove_url (s : Store) (url : String) :
    lookupPage (resultupdater.remove_url s url) url = none := by
  unfold lookupPage resultupdater.remove_url
  rw [List.find?_eq_none.mpr]
  · rfl
  · intro x hx
    have := (List.mem_filter.mp hx).2
    simpa using this

/-- Every successful favicon resolution returns the md5 of the resolved icon
URL (so the identifier depends only on the URL, not on the response). -/
theorem favicons_download_success (domain : String) (iconHref : Option String)
    (resp : HttpResponse) (h : favicons.download_favicon domain iconHref resp ≠ none) :
    favicons.download_favicon domain iconHref resp =
      some (md5hex (get_favicon_url_from_html domain iconHref)) := by
  simp only [favicons.download_favicon] at h ⊢
  split at h
  · rename_i hst
    rw [if_pos hst]
    split at h
    · exact absurd rfl h
    · rename_i hpr
      rw [if_neg hpr]
      split at h
      · exact absurd rfl h
      · rfl
  · rename_i hst
    exact absurd rfl h

/-! # Claim theorems -/

/-- C1: the claimed upsert behaviour fails in the code.  Crawling a URL with
no stored row leaves the store unchanged — no row is inserted — and crawling a
URL whose stored metadata equal the extracted metadata calls `save_page`, an
`INSERT` of an existing primary key, which raises `IntegrityError`; only the
metadata-differs case updates the row.  This theorem evaluates `crawl_page`'s
persistence step at those inputs. -/
theorem C1_upsert_code_eval :
    web.crawl_page_persist [] "https://example.com" "T" "D" "K" 0 = .ok ([], true) ∧
    web.crawl_page_persist
        [("https://example.com", ⟨"T", "D", "K", none, 7, some 1⟩)]
        "https://example.com" "T" "D" "K" 2 =
      .error "IntegrityError: UNIQUE constraint failed: pages.url" ∧
    web.crawl_page_persist
        [("https://example.com", ⟨"T0", "D", "K", none, 7, some 1⟩)]
        "https://example.com" "T" "D" "K" 2 =
      .ok ([("https://example.com", ⟨"T", "D", "K", none, 7, some 2⟩)], true) :=
  ⟨rfl, rfl, rfl⟩

/-- C2: the base delta matches the claimed formula (home page with full
metadata scores `+6`, deep page with empty metadata scores `-8`), but the
delta is never applied: a new URL inserts nothing at all, and an update leaves
the stored priority unchanged (7 stays 7); there is no `+1` bonus for
existing rows anywhere in the code. -/
theorem C2_priority_delta_eval :
    web.priority_adjustment "https://example.com" "T" "D" "K" = 6 ∧
    web.priority_adjustment "https://example.com/x" "" "" "" = -8 ∧
    (web.crawl_page ⟨200, "T", "D", "K", []⟩ "https://example.com" [] 0).1 = [] ∧
    (web.crawl_page ⟨200, "T2", "D", "K", []⟩ "https://example.com"
        [("https://example.com", ⟨"T", "D", "K", none, 7, some 1⟩)] 2).1 =
      [("https://example.com", ⟨"T2", "D", "K", none, 7, some 2⟩)] := by
  decide

/-- C3 counterexample: with every fetch answering 429 and the default retry
budget of 3, `resultupdater.crawl` performs 4 `session.get` calls — the
initial attempt plus 3 retries — not 3 as claimed. -/
theorem C3_counterexample :
    resultupdater.crawl resultupdater.always429 none 0 "https://example.com" [] 0 3 =
      ⟨4, [5, 5, 5], []⟩ ∧
    (resultupdater.crawl resultupdater.always429 none 0 "https://example.com" [] 0 3).attempts
      ≠ 3 := by
  decide

/-- C3 (amended): for every URL whose fetch returns HTTP 429 on every attempt,
`crawl` makes exactly 4 fetch attempts (one initial plus 3 retries), sleeping
a fixed 5 seconds before each retry, and then abandons the URL with no
mutation of the page store. -/
theorem C3_amended_retry (responses : Nat → resultupdater.FetchResult)
    (h : ∀ n, (responses n).status = 429) (fav : Option String) (now : Nat)
    (url : String) (s : Store) :
    resultupdater.crawl responses fav now url s 0 3 = ⟨4, [5, 5, 5], s⟩ := by
  rw [ru_crawl_429 responses h fav now url s 0 3]
  rfl

/-- C3 witness: the amended statement at a concrete all-429 run. -/
theorem C3_amended_retry_witness :
    resultupdater.crawl resultupdater.always429 none 0 "u" [] 0 3 = ⟨4, [5, 5, 5], []⟩ :=
  C3_amended_retry resultupdater.always429 (fun _ => rfl) none 0 "u" []

/-- C4 counterexample: there is no query-significant-origin exception —
`normalize_url` strips the query from the YouTube watch URL as well, so the
claimed value `https://youtube.com/watch?v=abc` is wrong. -/
theorem C4_counterexample :
    web.normalize_url "https://youtube.com/watch?v=abc#t=5" = "https://youtube.com/watch" ∧
    "https://youtube.com/watch" ≠ "https://youtube.com/watch?v=abc" := by
  decide

/-- C4 (amended): `web.py`'s `normalize_url` strips the fragment, the query
string and trailing slashes for every URL, with no exception list: the output
never contains `#` or `?` and never ends in `/`; the first claimed example
holds, the YouTube example normalizes to `https://youtube.com/watch`; and
`resultupdater.py`'s `normalize_url` variant strips only trailing slashes,
leaving the YouTube URL (query and fragment included) unchanged. -/
theorem C4_amended_strips :
    (∀ u : String, '#' ∉ (web.normalize_url u).data ∧ '?' ∉ (web.normalize_url u).data ∧
        (web.normalize_url u).data.getLast? ≠ some '/') ∧
    web.normalize_url "https://example.com/a/?x=1#frag" = "https://example.com/a" ∧
    web.normalize_url "https://youtube.com/watch?v=abc#t=5" = "https://youtube.com/watch" ∧
    resultupdater.normalize_url "https://youtube.com/watch?v=abc#t=5" =
      "https://youtube.com/watch?v=abc#t=5" :=
  ⟨normalize_url_stripped, by decide, by decide, by decide⟩

/-- C5 counterexample: `normalize_url` is not idempotent on all inputs — a
scheme-less input such as `"foo"` normalizes to `"://foo"`, which normalizes
again to `"://://foo"`. -/
theorem C5_counterexample :
    web.normalize_url (web.normalize_url "foo") ≠ web.normalize_url "foo" := by
  decide

/-- C5 (amended): `normalize_url` is a pure function (hence deterministic),
and it is idempotent on every URL with a recognized scheme and no semicolon —
in particular on all ordinary http/https URLs.  (It fails on scheme-less
inputs, and the `urlparse` params split can break it on `;`.) -/
theorem C5_amended_idempotent (u : String) (hs : (urlparse u).scheme ≠ [])
    (hsemi : ';' ∉ u.data) :
    web.normalize_url (web.normalize_url u) = web.normalize_url u :=
  normalize_url_idem u hs hsemi

/-- C5 witness: idempotence at the spec's own example URL. -/
theorem C5_amended_idempotent_witness :
    web.normalize_url (web.normalize_url "https://example.com/a/?x=1#frag") =
      web.normalize_url "https://example.com/a/?x=1#frag" :=
  C5_amended_idempotent "https://example.com/a/?x=1#frag" (by decide) (by decide)

/-- C6 counterexample: in `web.py`'s `crawl_page` a 404 response does not
delete the stored row — the URL is skipped and the row survives. -/
theorem C6_counterexample :
    web.crawl_page ⟨404, "", "", "", []⟩ "https://example.com/x"
        [("https://example.com/x", ⟨"a", "b", "c", none, 0, some 0⟩)] 5 =
      ([("https://example.com/x", ⟨"a", "b", "c", none, 0, some 0⟩)], []) ∧
    lookupPage [("https://example.com/x", ⟨"a", "b", "c", none, 0, some 0⟩)]
        "https://example.com/x" ≠ none := by
  decide

/-- C6 (amended): the refresh crawler (`resultupdater.crawl`) deletes the
existing row, creates none, and stops, on every 4xx status other than 429; the
seed crawler (`web.crawl_page`) instead stops with no store mutation at all on
any non-200 status. -/
theorem C6_amended_4xx (resp : resultupdater.FetchResult) (h4 : 400 ≤ resp.status)
    (h5 : resp.status < 500) (h429 : resp.status ≠ 429) (fav : Option String)
    (now : Nat) (url : String) (s : Store)
    (fetch : web.WebFetch) (hws : fetch.status = resp.status)
    (wurl : String) (ws : Store) (wnow : Nat) :
    resultupdater.crawl (fun _ => resp) fav now url s 0 3 =
      ⟨1, [], resultupdater.remove_url s url⟩ ∧
    lookupPage (resultupdater.remove_url s url) url = none ∧
    web.crawl_page fetch wurl ws wnow = (ws, []) := by
  refine ⟨ru_crawl_4xx resp h4 h5 h429 fav now url s 0 3,
    lookupPage_remove_url s url, ?_⟩
  simp only [web.crawl_page]
  rw [if_pos (by rw [hws]; omega)]

/-- C6 witness: the amended statement at status 404 with a stored row. -/
theorem C6_amended_4xx_witness :
    resultupdater.crawl (fun _ => (⟨404, false, "", "", ""⟩ : resultupdater.FetchResult))
        none 0 "https://example.com/x"
        [("https://example.com/x", ⟨"a", "b", "c", none, 0, some 0⟩)] 0 3 =
      ⟨1, [], resultupdater.remove_url
        [("https://example.com/x", ⟨"a", "b", "c", none, 0, some 0⟩)]
        "https://example.com/x"⟩ ∧
    lookupPage (resultupdater.remove_url
        [("https://example.com/x", ⟨"a", "b", "c", none, 0, some 0⟩)]
        "https://example.com/x") "https://example.com/x" = none ∧
    web.crawl_page ⟨404, "", "", "", []⟩ "https://example.com/x" [] 0 = ([], []) :=
  C6_amended_4xx ⟨404, false, "", "", ""⟩ (by decide) (by decide) (by decide)
    none 0 "https://example.com/x"
    [("https://example.com/x", ⟨"a", "b", "c", none, 0, some 0⟩)]
    ⟨404, "", "", "", []⟩ rfl "https://example.com/x" [] 0

/-- C7: cancelling a task that is still pending marks it canceled (never
completed), but the dispatcher's skip path runs the `finally` block after
`continue`, calling `task_done()` a second time; with a single queued item the
second call raises before `canceled_tasks.discard`, so the id is NOT removed
from the Cancellation Registry (and the dispatcher thread dies).  Cancelling a
running task mid-execution does end as canceled with the registry cleared. -/
theorem C7_registry_eval :
    dashboard.background_crawler_step (dashboard.cancel_task ⟨"pending", false, 1⟩)
        false false = ⟨⟨"canceled", true, 0⟩, true⟩ ∧
    dashboard.background_crawler_step ⟨"pending", false, 1⟩ true false =
      ⟨⟨"canceled", false, 0⟩, false⟩ ∧
    dashboard.background_crawler_step ⟨"pending", false, 1⟩ false false =
      ⟨⟨"completed", false, 0⟩, false⟩ := by
  decide

/-- C8: `startup_table` (the task table the dispatcher first sees, produced by
`reset_running_tasks` before the dispatcher thread starts) contains no pending
or running task: every task that was pending/running is now failed, and every
other task is unchanged. -/
theorem C8_startup_reset (tasks : dashboard.TaskTable) :
    (∀ p ∈ dashboard.startup_table tasks, p.2 ≠ "pending" ∧ p.2 ≠ "running") ∧
    (∀ p ∈ tasks, (p.2 = "pending" ∨ p.2 = "running") →
      (p.1, "failed") ∈ dashboard.startup_table tasks) ∧
    (∀ p ∈ tasks, ¬ (p.2 = "pending" ∨ p.2 = "running") →
      p ∈ dashboard.startup_table tasks) := by
  unfold dashboard.startup_table dashboard.reset_running_tasks
  refine ⟨?_, ?_, ?_⟩
  · intro p hp
    rw [List.mem_map] at hp
    obtain ⟨q, _, heq⟩ := hp
    subst heq
    split
    · exact ⟨by show ("failed" : String) ≠ "pending"; decide,
        by show ("failed" : String) ≠ "running"; decide⟩
    · rename_i hcond
      simp only [Bool.or_eq_true, decide_eq_true_eq] at hcond
      push_neg at hcond
      exact ⟨hcond.2, hcond.1⟩
  · intro p hp hpr
    rw [List.mem_map]
    refine ⟨p, hp, ?_⟩
    have hc : (decide (p.2 = "running") || decide (p.2 = "pending")) = true := by
      rcases hpr with h | h <;> simp [h]
    rw [if_pos hc]
  · intro p hp hpr
    rw [List.mem_map]
    refine ⟨p, hp, ?_⟩
    push_neg at hpr
    have hc : (decide (p.2 = "running") || decide (p.2 = "pending")) = false := by
      simp [hpr.1, hpr.2]
    rw [if_neg (by simp [hc])]

/-- C8 witness: a concrete stuck-running task is failed at startup. -/
theorem C8_startup_reset_witness :
    (1, "failed") ∈ dashboard.startup_table [(1, "running"), (2, "completed")] :=
  (C8_startup_reset [(1, "running"), (2, "completed")]).2.1 (1, "running")
    (by decide) (Or.inr rfl)

/-- C9 counterexample: `web.py`'s `download_favicon` accepts a 200 response
whose content type is `text/html` and still returns an identifier — it has no
HTML check and no extension table — contradicting the claim that such a fetch
yields no result. -/
theorem C9_counterexample :
    web.download_favicon "example.com" none ⟨200, "text/html"⟩ =
      some (md5hex "https://example.com/favicon.ico") ∧
    web.download_favicon "example.com" none ⟨200, "text/html"⟩ ≠ none := by
  decide

/-- C9 (amended): in `favicons.py` (and the identical `resultupdater.py`
logic) favicon resolution uses the discovered icon link else the
`/favicon.ico` fallback; a non-200 status, a `text/html` content type, or a
content type outside the png/jpeg/svg/x-icon/webp/avif table yields no result;
and every success returns the md5 of the resolved icon URL, so an unchanged
icon URL yields the same identifier.  (`web.py`'s variant instead accepts any
200 response, as the counterexample shows.) -/
theorem C9_amended_favicon (domain : String) (iconHref : Option String)
    (resp resp2 : HttpResponse) :
    get_favicon_url_from_html domain none = "https://" ++ domain ++ "/favicon.ico" ∧
    (∀ href, get_favicon_url_from_html domain (some href) = href) ∧
    (resp.status ≠ 200 → favicons.download_favicon domain iconHref resp = none) ∧
    ("text/html".data.isPrefixOf (resp.contentType.data.map lowerChar) = true →
      favicons.download_favicon domain iconHref resp = none) ∧
    (favicons.extOfContentType (resp.contentType.data.map lowerChar) = none →
      favicons.download_favicon domain iconHref resp = none) ∧
    (favicons.download_favicon domain iconHref resp ≠ none →
      favicons.download_favicon domain iconHref resp2 ≠ none →
      favicons.download_favicon domain iconHref resp =
        favicons.download_favicon domain iconHref resp2) := by
  refine ⟨rfl, fun _ => rfl, ?_, ?_, ?_, ?_⟩
  · intro h
    simp only [favicons.download_favicon]
    rw [if_neg h]
  · intro h
    simp only [favicons.download_favicon]
    by_cases hs : resp.status = 200
    · rw [if_pos hs, if_pos h]
    · rw [if_neg hs]
  · intro h
    simp only [favicons.download_favicon]
    by_cases hs : resp.status = 200
    · rw [if_pos hs]
      split
      · rfl
      · rw [h]
    · rw [if_neg hs]
  · intro h1 h2
    rw [favicons_download_success _ _ _ h1, favicons_download_success _ _ _ h2]

/-- C9 witness: the amended statement at a concrete non-200 response. -/
theorem C9_amended_favicon_witness :
    favicons.download_favicon "example.com" none ⟨404, "image/png"⟩ = none :=
  (C9_amended_favicon "example.com" none ⟨404, "image/png"⟩ ⟨404, "image/png"⟩).2.2.1
    (by decide)

/-- C10: every link `crawl_page` returns for enqueueing has the same host
(netloc) as the normalized page it was found on, for every fetch outcome and
store — the same-domain filter in `crawl_page` is unconditional (the function
has no `same_domain` parameter at all). -/
theorem C10_links_same_domain (fetch : web.WebFetch) (url : String) (s : Store)
    (now : Nat) (hb : (urlparse (web.normalize_url url)).netloc ≠ []) :
    ∀ l ∈ (web.crawl_page fetch url s now).2,
      (urlparse l).netloc = (urlparse (web.normalize_url url)).netloc := by
  intro l hl
  simp only [web.crawl_page] at hl
  split at hl
  · simp at hl
  · split at hl
    · simp at hl
    · split at hl
      · exact collectLinks_same_domain _ _ hb l hl
      · simp at hl

/-- C10 witness: a concrete crawl keeps only same-domain links. -/
theorem C10_links_same_domain_witness :
    "https://example.com/a" ∈
      (web.crawl_page ⟨200, "T", "D", "K", ["https://example.com/a/"]⟩
        "https://example.com" [] 0).2 ∧
    (urlparse "https://example.com/a").netloc =
      (urlparse (web.normalize_url "https://example.com")).netloc :=
  ⟨by decide,
   C10_links_same_domain ⟨200, "T", "D", "K", ["https://example.com/a/"]⟩
     "https://example.com" [] 0 (by decide) "https://example.com/a" (by decide)⟩
